import Mathlib

/-!
# Verification of the LCM closed-itemset miner (`skmine/itemsets/lcm.py`)

Shallow embedding of the LCM (Linear time Closed itemset Miner) implementation:
`_check_min_supp`, `LCM.__init__`, `LCM._fit`, `LCM.fit_discover`,
`LCM.fit_transform`, `LCM._explore_item` and `LCM._inner`.

Items are natural numbers (the concrete data the implementation is exercised
with, and the Python truthiness of the integer item `0` matters).  Transaction
ids are natural numbers assigned in input order; a `TidSet` is a `Finset ℕ`.
`min_supp` may be a Python `int`, a Python `float` (modelled as `ℚ`, every
comparison the code performs on it is exact in `ℚ`), or a value of any other
type.
-/

namespace Skmine

/-- The dynamic type of the `min_supp` argument: a Python `int`, a Python
`float` (modelled exactly as a rational), or a value of any other type. -/
inductive MinSupp where
  | int (n : ℤ)
  | float (q : ℚ)
  | other
deriving DecidableEq

/-- The two kinds of exception `_check_min_supp` can raise:
`ValueError` or `TypeError`. -/
inductive LcmError where
  | valueError
  | typeError
deriving DecidableEq

/-- Embedding of `_check_min_supp` (lcm.py:20-29): an `int` must be ≥ 1,
a `float` must lie in `[0, 1]`, anything else is a `TypeError`. -/
def check_min_supp : MinSupp → Except LcmError MinSupp
  | .int n => if n < 1 then .error .valueError else .ok (.int n)
  | .float q => if q < 0 ∨ 1 < q then .error .valueError else .ok (.float q)
  | .other => .error .typeError

/-- The numeric value of a validated `min_supp`, as the code stores it in
`self._min_supp` (an `int` is used as an exact count, a `float` as a
fraction). -/
def msValue : MinSupp → ℚ
  | .int n => (n : ℚ)
  | .float q => q
  | .other => 0

/-- The pruned item index `self.item_to_tids` (a `SortedDict`):
`itemsL` is the key list in ascending order, `tids` maps an item to its
`RoaringBitmap` of transaction ids. -/
structure Index where
  itemsL : List ℕ
  tids : ℕ → Finset ℕ

/-- The key set of the index. -/
def Index.items (idx : Index) : Finset ℕ := idx.itemsL.toFinset

/-- The observable state of an `LCM` model object. -/
structure LCMState where
  min_supp : MinSupp
  minSuppR : ℚ
  n_transactions : ℕ
  index : Option Index
  n_jobs : ℤ

/-- The state `LCM.__init__` (lcm.py:73-80) builds once `_check_min_supp`
has passed: `item_to_tids = None`, `n_transactions = 0`, `n_jobs` stored
without any validation. -/
def initState (ms : MinSupp) (n_jobs : ℤ) : LCMState :=
  { min_supp := ms, minSuppR := msValue ms, n_transactions := 0,
    index := none, n_jobs := n_jobs }

/-- Embedding of `LCM.__init__` (lcm.py:73-80): validates `min_supp`
(raising propagates as `Except.error`) and stores `n_jobs` unchecked. -/
def LCM_init (ms : MinSupp) (n_jobs : ℤ) : Except LcmError LCMState :=
  (check_min_supp ms).map (fun _ => initState ms n_jobs)

/-- The tid-set an item receives in `_fit` (lcm.py:102-107): transaction
number `j` of `D` gets transaction id `base + j`, where `base` is the value
of `self.n_transactions` when `_fit` starts (it is *not* reset between
fits). -/
def transTids (base : ℕ) (D : List (List ℕ)) (i : ℕ) : Finset ℕ :=
  ((Finset.range D.length).filter (fun j => i ∈ D.getD j [])).image (fun j => base + j)

/-- The items occurring in the database, in first-occurrence order
(the keys the `defaultdict` in `_fit` acquires). -/
def allItemsL (D : List (List ℕ)) : List ℕ := (D.flatMap (fun t => t)).dedup

/-- The set of items occurring in the database. -/
def allItems (D : List (List ℕ)) : Finset ℕ := (allItemsL D).toFinset

/-- The resolved absolute support threshold after a fit that brought the
transaction counter to `n'` (lcm.py:109-111): a relative (`float`)
`min_supp` is multiplied by the total transaction count, with no rounding;
otherwise `self._min_supp` keeps its current value. -/
def resolveSupp (st : LCMState) (n' : ℕ) : ℚ :=
  match st.min_supp with
  | .float q => q * (n' : ℚ)
  | _ => st.minSuppR

/-- The pruned index `_fit` builds (lcm.py:102-117): every item whose
tid-set size is strictly below the resolved threshold is deleted, and the
survivors are frozen into a `SortedDict` (ascending key order). -/
def fitIndex (st : LCMState) (D : List (List ℕ)) : Index :=
  ⟨List.insertionSort (· ≤ ·)
      ((allItemsL D).filter
        (fun i =>
          decide (¬ (((transTids st.n_transactions D i).card : ℚ) <
            resolveSupp st (st.n_transactions + D.length))))),
    transTids st.n_transactions D⟩

/-- Embedding of `LCM._fit` (lcm.py:102-118).  Note that
`self.n_transactions` is *accumulated*, never reset: a second fit keeps
counting transaction ids where the first one stopped. -/
def fitS (st : LCMState) (D : List (List ℕ)) : LCMState :=
  { st with
    n_transactions := st.n_transactions + D.length,
    minSuppR := resolveSupp st (st.n_transactions + D.length),
    index := some (fitIndex st D) }

/-- The generator `cp` of `_inner` (lcm.py:228-231) as a set: the index
items outside `p` whose tid-set contains `tids`.  Its maximum is `max_k`
(the first element of the descending scan). -/
def Qset (idx : Index) (p tids : Finset ℕ) : Finset ℕ :=
  idx.items.filter (fun x => x ∉ p ∧ tids ⊆ idx.tids x)

/-- The candidate list of `_inner` (lcm.py:239-240):
`self.item_to_tids.keys() - p_prime` sliced to the items strictly below
`limit`, in ascending order. -/
def candidates (idx : Index) (p : Finset ℕ) (limit : ℕ) : List ℕ :=
  idx.itemsL.filter (fun c => decide (c ∉ p) && decide (c < limit))

/-- Embedding of the recursive generator `LCM._inner` (lcm.py:226-245),
with an explicit structural fuel (the recursion strictly decreases
`limit`, so fuel `limit + 1` is always enough; see `inner_eq`).
The emission guard is `if max_k and max_k == limit:` — Python truthiness,
so the branch is also skipped when `max_k` is the (falsy) item `0`. -/
def innerFuel (idx : Index) (ms : ℚ) :
    ℕ → Finset ℕ → Finset ℕ → ℕ → List (Finset ℕ × Finset ℕ)
  | 0, _, _, _ => []
  | fuel + 1, p, tids, limit =>
    if (Qset idx p tids).max = (limit : WithBot ℕ) ∧ limit ≠ 0 then
      (p ∪ Qset idx p tids, tids) ::
        (candidates idx (p ∪ Qset idx p tids) limit).flatMap
          (fun c =>
            if ms ≤ ((tids ∩ idx.tids c).card : ℚ) then
              innerFuel idx ms fuel (p ∪ Qset idx p tids) (tids ∩ idx.tids c) c
            else [])
    else []

/-- `LCM._inner(p, tids, limit)`: the fuelled recursion started with enough
fuel (`inner_eq` below shows this satisfies the code's recursion
equation). -/
def inner (idx : Index) (ms : ℚ) (p tids : Finset ℕ) (limit : ℕ) :
    List (Finset ℕ × Finset ℕ) :=
  innerFuel idx ms (limit + 1) p tids limit

/-- The root dispatch order of `fit_discover` (lcm.py:161): index entries
sorted by decreasing tid-set size; Python's sort is stable, so ties keep
the ascending item order of the `SortedDict`, which the lexicographic
relation below reproduces. -/
def suppSorted (idx : Index) : List ℕ :=
  List.insertionSort
    (fun a b => (idx.tids b).card < (idx.tids a).card ∨
      ((idx.tids a).card = (idx.tids b).card ∧ a ≤ b))
    idx.itemsL

/-- The concatenated output of all root searches
(`LCM._explore_item` at lcm.py:219-224 runs `_inner(frozenset(), tids, item)`
for each root; `fit_discover` concatenates in submission order). -/
def discoverPatterns (idx : Index) (ms : ℚ) : List (Finset ℕ × Finset ℕ) :=
  (suppSorted idx).flatMap (fun i => inner idx ms ∅ (idx.tids i) i)

/-- Embedding of `LCM.fit_discover` (lcm.py:120-172) with
`return_tids=True`: the fitted state together with the list of
(itemset, tid-set) rows of the returned DataFrame. -/
def fit_discover (st : LCMState) (D : List (List ℕ)) :
    LCMState × List (Finset ℕ × Finset ℕ) :=
  (fitS st D, discoverPatterns (fitIndex st D) (resolveSupp st (st.n_transactions + D.length)))

/-- `LCM.fit_discover` with `return_tids=False` (lcm.py:169-171): the
`tids` column is replaced by its length (the support). -/
def fit_discover_supports (st : LCMState) (D : List (List ℕ)) :
    List (Finset ℕ × ℕ) :=
  (fit_discover st D).2.map (fun r => (r.1, r.2.card))

/-- Embedding of `LCM.fit_transform` (lcm.py:174-216): the one-hot matrix,
given as (number of rows, number of columns, entry function); columns are
the discovered patterns reordered by decreasing support, rows are the
transaction ids, and entry `(t, j)` is 1 iff transaction `t` is in the
`j`-th pattern's tid-set. -/
def fit_transform (st : LCMState) (D : List (List ℕ)) :
    ℕ × ℕ × (ℕ → ℕ → ℕ) :=
  let r := fit_discover st D
  let pats := List.insertionSort (fun a b => (b.2).card ≤ (a.2).card) r.2
  (r.1.n_transactions, pats.length,
    fun t j => if t ∈ (pats.getD j (∅, ∅)).2 then 1 else 0)

/-- Brute-force support of an itemset: the number of transactions of `D`
containing it (the refinement-side notion the spec's completeness property
is stated against). -/
def bruteSupport (D : List (List ℕ)) (A : Finset ℕ) : ℕ :=
  ((Finset.range D.length).filter (fun t => A ⊆ (D.getD t []).toFinset)).card

/-- Brute-force closedness, following the spec's words: no item of the
database outside `A` can be added to `A` without strictly reducing its
support. -/
def bruteClosed (D : List (List ℕ)) (A : Finset ℕ) : Prop :=
  ∀ x ∈ allItems D, x ∉ A → bruteSupport D (insert x A) < bruteSupport D A

instance (D : List (List ℕ)) (A : Finset ℕ) : Decidable (bruteClosed D A) := by
  unfold bruteClosed
  infer_instance

/-! ## Basic facts about the search recursion -/

/-- Membership in the candidate list is exactly: an index key outside the
closure prefix and strictly below the current limit. -/
theorem mem_candidates {idx : Index} {p : Finset ℕ} {limit c : ℕ} :
    c ∈ candidates idx p limit ↔ c ∈ idx.itemsL ∧ c ∉ p ∧ c < limit := by
  simp [candidates, List.mem_filter, Bool.and_eq_true, decide_eq_true_eq, and_assoc]

/-- The fuel is irrelevant as soon as it exceeds `limit`: the recursion
strictly decreases `limit`, so `limit + 1` levels always suffice. -/
theorem innerFuel_irrel (idx : Index) (ms : ℚ) :
    ∀ (limit f1 f2 : ℕ) (p tids : Finset ℕ), limit < f1 → limit < f2 →
      innerFuel idx ms f1 p tids limit = innerFuel idx ms f2 p tids limit := by
  intro limit
  induction limit using Nat.strong_induction_on with
  | _ limit ih =>
    intro f1 f2 p tids h1 h2
    cases f1 with
    | zero => exact absurd h1 (Nat.not_lt_zero _)
    | succ f1 =>
      cases f2 with
      | zero => exact absurd h2 (Nat.not_lt_zero _)
      | succ f2 =>
        simp only [innerFuel]
        split
        · congr 1
          apply List.flatMap_congr
          intro c hc
          have hclt : c < limit := (mem_candidates.mp hc).2.2
          split
          · exact ih c hclt f1 f2 _ _ (by omega) (by omega)
          · rfl
        · rfl

/-- `inner` satisfies the recursion equation of `LCM._inner`
(lcm.py:226-245): emit the closure and recurse on each frequent candidate
strictly below the limit. -/
theorem inner_eq (idx : Index) (ms : ℚ) (p tids : Finset ℕ) (limit : ℕ) :
    inner idx ms p tids limit =
      if (Qset idx p tids).max = (limit : WithBot ℕ) ∧ limit ≠ 0 then
        (p ∪ Qset idx p tids, tids) ::
          (candidates idx (p ∪ Qset idx p tids) limit).flatMap
            (fun c =>
              if ms ≤ ((tids ∩ idx.tids c).card : ℚ) then
                inner idx ms (p ∪ Qset idx p tids) (tids ∩ idx.tids c) c
              else [])
      else [] := by
  unfold inner
  simp only [innerFuel]
  split
  · congr 1
    apply List.flatMap_congr
    intro c hc
    have hclt : c < limit := (mem_candidates.mp hc).2.2
    split
    · exact innerFuel_irrel idx ms c limit (c + 1) _ _ hclt (by omega)
    · rfl
  · rfl

/-- Invariant of every pattern a call `_inner(p, tids, limit)` emits
(directly or through recursion): the prefix only grows, the maximum of the
newly added items is exactly the limit that generated the pattern, and the
pattern is closed with respect to the index. -/
theorem innerFuel_spec (idx : Index) (ms : ℚ) :
    ∀ (fuel : ℕ) (p tids : Finset ℕ) (limit : ℕ) (P T : Finset ℕ),
      (P, T) ∈ innerFuel idx ms fuel p tids limit →
      p ⊆ P ∧ (P \ p).max = (limit : WithBot ℕ) ∧
        ∀ x ∈ idx.items, x ∉ P → ¬ T ⊆ idx.tids x := by
  intro fuel
  induction fuel with
  | zero => intro p tids limit P T h; simp [innerFuel] at h
  | succ fuel ih =>
    intro p tids limit P T h
    simp only [innerFuel] at h
    split at h
    case isTrue hcond =>
      have hdisj : Disjoint p (Qset idx p tids) := by
        rw [Finset.disjoint_left]
        intro a ha hq
        exact (Finset.mem_filter.mp hq).2.1 ha
      have hpQ : (p ∪ Qset idx p tids) \ p = Qset idx p tids :=
        Finset.union_sdiff_cancel_left hdisj
      rcases List.mem_cons.mp h with heq | hmem
      · cases heq
        refine ⟨Finset.subset_union_left, ?_, ?_⟩
        · rw [hpQ]; exact hcond.1
        · intro x hx hxP hsub
          exact hxP (Finset.mem_union_right _ (Finset.mem_filter.mpr
            ⟨hx, fun hxp => hxP (Finset.mem_union_left _ hxp), hsub⟩))
      · rcases List.mem_flatMap.mp hmem with ⟨c, hc, hin⟩
        have hclt : c < limit := (mem_candidates.mp hc).2.2
        split at hin
        case isTrue hms =>
          obtain ⟨hsub, hmax, hclo⟩ := ih _ _ _ _ _ hin
          refine ⟨Finset.subset_union_left.trans hsub, ?_, hclo⟩
          have hsplit :
              P \ (p ∪ Qset idx p tids) ∪ (p ∪ Qset idx p tids) \ p = P \ p :=
            Finset.sdiff_union_sdiff_cancel hsub Finset.subset_union_left
          rw [← hsplit, Finset.max_union, hmax, hpQ, hcond.1]
          exact sup_eq_right.mpr (WithBot.coe_le_coe.mpr hclt.le)
        case isFalse => simp at hin
    case isFalse => simp at h

/-- Concatenating pointwise-nodup, pairwise-disjoint lists yields a list
with no repetition. -/
theorem flatMap_nodup {α β : Type} (l : List α) (g : α → List β)
    (h1 : ∀ a ∈ l, (g a).Nodup)
    (h2 : l.Pairwise (fun a b => ∀ x ∈ g a, x ∉ g b)) :
    (l.flatMap g).Nodup := by
  induction l with
  | nil => simp
  | cons a l ih =>
    rw [List.flatMap_cons, List.nodup_append]
    rcases List.pairwise_cons.mp h2 with ⟨hhead, htail⟩
    refine ⟨h1 a (by simp), ih (fun b hb => h1 b (by simp [hb])) htail, ?_⟩
    intro x hxa hxl
    rcases List.mem_flatMap.mp hxl with ⟨b, hb, hxb⟩
    exact hhead b hb x hxa hxb

/-- One call of `_inner` never emits the same itemset twice: the node's own
closure strictly contains the prefix of every deeper emission, and two
different candidate sub-calls emit itemsets with different maxima of the
newly added part. -/
theorem innerFuel_nodup (idx : Index) (ms : ℚ) (hN : idx.itemsL.Nodup) :
    ∀ (fuel : ℕ) (p tids : Finset ℕ) (limit : ℕ),
      ((innerFuel idx ms fuel p tids limit).map Prod.fst).Nodup := by
  intro fuel
  induction fuel with
  | zero => intro p tids limit; simp [innerFuel]
  | succ fuel ih =>
    intro p tids limit
    simp only [innerFuel]
    split
    case isTrue hcond =>
      rw [List.map_cons, List.nodup_cons, List.map_flatMap]
      constructor
      · intro hmem
        rcases List.mem_flatMap.mp hmem with ⟨c, hc, hin⟩
        split at hin
        · rcases List.mem_map.mp hin with ⟨⟨P, T⟩, hPT, hfst⟩
          obtain ⟨hsub, hmax, -⟩ := innerFuel_spec idx ms fuel _ _ _ _ _ hPT
          have hP : P = p ∪ Qset idx p tids := hfst
          rw [hP, Finset.sdiff_self, Finset.max_empty] at hmax
          exact Option.noConfusion hmax
        · simp at hin
      · apply flatMap_nodup
        · intro c hc
          split
          · exact ih _ _ _
          · simp
        · have hcand : (candidates idx (p ∪ Qset idx p tids) limit).Nodup :=
            hN.filter _
          refine List.Pairwise.imp ?_ hcand
          intro a b hab x hxa hxb
          apply hab
          split at hxa
          · split at hxb
            · rcases List.mem_map.mp hxa with ⟨⟨P, T⟩, hPT, hfst⟩
              obtain ⟨-, hmaxa, -⟩ := innerFuel_spec idx ms fuel _ _ _ _ _ hPT
              rcases List.mem_map.mp hxb with ⟨⟨P', T'⟩, hPT', hfst'⟩
              obtain ⟨-, hmaxb, -⟩ := innerFuel_spec idx ms fuel _ _ _ _ _ hPT'
              have hPP : P = P' := by
                have ha : P = x := hfst
                have hb : P' = x := hfst'
                rw [ha, hb]
              rw [hPP, hmaxb] at hmaxa
              exact_mod_cast hmaxa.symm
            · simp at hxb
          · simp at hxa
    case isFalse => simp

/-- The index built by `_fit` has pairwise-distinct keys. -/
theorem fitIndex_nodup (st : LCMState) (D : List (List ℕ)) :
    (fitIndex st D).itemsL.Nodup :=
  (List.perm_insertionSort _ _).symm.nodup ((List.nodup_dedup _).filter _)

/-- A full run of the root dispatcher emits no itemset twice: distinct
roots generate itemsets with distinct maxima, and each root's own search
is duplicate-free. -/
theorem discoverPatterns_nodup (idx : Index) (ms : ℚ) (hN : idx.itemsL.Nodup) :
    ((discoverPatterns idx ms).map Prod.fst).Nodup := by
  unfold discoverPatterns
  rw [List.map_flatMap]
  apply flatMap_nodup
  · intro i hi
    exact innerFuel_nodup idx ms hN _ _ _ _
  · have hs : (suppSorted idx).Nodup :=
      (List.perm_insertionSort _ idx.itemsL).symm.nodup hN
    refine List.Pairwise.imp ?_ hs
    intro a b hab x hxa hxb
    apply hab
    rcases List.mem_map.mp hxa with ⟨⟨P, T⟩, hPT, hfst⟩
    obtain ⟨-, hmaxa, -⟩ := innerFuel_spec idx ms _ _ _ _ _ _ hPT
    rcases List.mem_map.mp hxb with ⟨⟨P', T'⟩, hPT', hfst'⟩
    obtain ⟨-, hmaxb, -⟩ := innerFuel_spec idx ms _ _ _ _ _ _ hPT'
    have hPP : P = P' := by
      have ha : P = x := hfst
      have hb : P' = x := hfst'
      rw [ha, hb]
    rw [Finset.sdiff_empty] at hmaxa hmaxb
    rw [hPP, hmaxb] at hmaxa
    exact_mod_cast hmaxa.symm

/-! ## The claims -/

/-- C1 (code_bug evaluation): on `D = [[0], [0]]` with absolute
`min_supp = 2`, the itemset `{0}` is closed and has support 2, yet
`fit_discover` emits nothing: the guard `if max_k and max_k == limit:`
treats the integer item `0` as falsy, so the qualifying closed itemset
whose maximal item is `0` is omitted, contradicting completeness. -/
theorem c1_item_zero_omitted :
    bruteClosed [[0], [0]] {0} ∧ bruteSupport [[0], [0]] {0} = 2 ∧
      (fit_discover (initState (.int 2) 1) [[0], [0]]).2 = [] := by decide

/-- C2: on `D = [[1,2,3,4,5,6], [2,3,5], [2,5]]` with absolute
`min_supp = 2`, `fit_discover` returns exactly `{2,5}` with support 3 and
`{2,3,5}` with support 2, and nothing else. -/
theorem c2_concrete_scenario :
    fit_discover_supports (initState (.int 2) 1)
        [[1, 2, 3, 4, 5, 6], [2, 3, 5], [2, 5]]
      = [({2, 5}, 3), ({2, 3, 5}, 2)] := by decide

/-- C3: every itemset `A` emitted by `fit_discover` is closed: for every
item `x` of the pruned index with `x ∉ A`, intersecting `A`'s emitted
tid-set with `x`'s tid-set strictly shrinks it. -/
theorem c3_closure_correctness (st : LCMState) (D : List (List ℕ))
    (A T : Finset ℕ) (x : ℕ)
    (h : (A, T) ∈ (fit_discover st D).2)
    (hx : x ∈ (fitIndex st D).items) (hxA : x ∉ A) :
    T ∩ (fitIndex st D).tids x ⊂ T := by
  simp only [fit_discover, discoverPatterns] at h
  obtain ⟨i, -, hin⟩ := List.mem_flatMap.mp h
  obtain ⟨-, -, hclo⟩ := innerFuel_spec _ _ _ _ _ _ _ _ hin
  have hns := hclo x hx hxA
  rw [Finset.ssubset_iff_subset_ne]
  exact ⟨Finset.inter_subset_left, fun he => hns (Finset.inter_eq_left.mp he)⟩

/-- Witness for C3 at a concrete run: in the C2 database, the emitted
pattern `({2,5}, {0,1,2})` cannot absorb item 3 without losing
transaction 2. -/
theorem c3_closure_correctness_witness :
    (({2, 5} : Finset ℕ), ({0, 1, 2} : Finset ℕ)) ∈
        (fit_discover (initState (.int 2) 1)
          [[1, 2, 3, 4, 5, 6], [2, 3, 5], [2, 5]]).2 ∧
    3 ∈ (fitIndex (initState (.int 2) 1)
          [[1, 2, 3, 4, 5, 6], [2, 3, 5], [2, 5]]).items ∧
    3 ∉ ({2, 5} : Finset ℕ) ∧
    ({0, 1, 2} : Finset ℕ) ∩
        (fitIndex (initState (.int 2) 1)
          [[1, 2, 3, 4, 5, 6], [2, 3, 5], [2, 5]]).tids 3 ⊂ ({0, 1, 2} : Finset ℕ) :=
  ⟨by decide, by decide, by decide,
    c3_closure_correctness (initState (.int 2) 1)
      [[1, 2, 3, 4, 5, 6], [2, 3, 5], [2, 5]] {2, 5} {0, 1, 2} 3
      (by decide) (by decide) (by decide)⟩

/-- C4: across one whole run of `fit_discover`, no itemset (as a set of
items) is emitted more than once, for every input database and every model
state (in particular every value of `n_jobs`, which the search never
reads). -/
theorem c4_no_duplicates (st : LCMState) (D : List (List ℕ)) :
    (((fit_discover st D).2).map Prod.fst).Nodup :=
  discoverPatterns_nodup _ _ (fitIndex_nodup st D)

/-- C5 (code_bug evaluation): re-fitting does not discard prior state.
`fit([[1]])` twice leaves `n_transactions = 2` and tid-set `{1}` for
item 1, while a fresh `fit([[1]])` gives `n_transactions = 1` and `{0}`;
the subsequent `fit_discover` results differ accordingly (`({1}, {1})`
versus `({1}, {0})`). -/
theorem c5_refit_state_not_discarded :
    (fitS (fitS (initState (.int 1) 1) [[1]]) [[1]]).n_transactions = 2 ∧
    (fitS (initState (.int 1) 1) [[1]]).n_transactions = 1 ∧
    (fitIndex (fitS (initState (.int 1) 1) [[1]]) [[1]]).tids 1 = {1} ∧
    (fitIndex (initState (.int 1) 1) [[1]]).tids 1 = {0} ∧
    (fit_discover (fitS (initState (.int 1) 1) [[1]]) [[1]]).2 = [({1}, {1})] ∧
    (fit_discover (initState (.int 1) 1) [[1]]).2 = [({1}, {0})] := by decide

/-- C6 (counterexample): constructing the miner with `n_jobs = 0 < 1`
raises no error at all — `LCM.__init__` stores `n_jobs` without any
validation. -/
theorem c6_njobs_counterexample :
    LCM_init (.int 2) 0 = .ok (initState (.int 2) 0) := rfl

/-- C6 (amended): construction never validates `n_jobs`; whenever
`min_supp` passes `_check_min_supp`, construction succeeds for every
`n_jobs`, including values below 1, and just stores it. -/
theorem c6_no_njobs_validation (ms : MinSupp) (nj : ℤ)
    (h : (check_min_supp ms).isOk = true) :
    LCM_init ms nj = .ok (initState ms nj) := by
  unfold LCM_init
  cases hc : check_min_supp ms with
  | error e => rw [hc] at h; simp [Except.isOk, Except.toBool] at h
  | ok v => simp [Except.map]

/-- Witness for the amended C6: a valid `min_supp` and `n_jobs = 0`. -/
theorem c6_no_njobs_validation_witness :
    (check_min_supp (.float (mkRat 1 2))).isOk = true ∧
    LCM_init (.float (mkRat 1 2)) 0 = .ok (initState (.float (mkRat 1 2)) 0) :=
  ⟨by decide, c6_no_njobs_validation _ 0 (by decide)⟩

/-- C7: `_check_min_supp` rejects an integer `min_supp` below 1 and a real
one outside `[0, 1]` with `ValueError`, rejects any other type with
`TypeError` — all at construction, before any transaction is read — and
accepts every valid `min_supp` without error. -/
theorem c7_min_supp_validation (n : ℤ) (q : ℚ) :
    (n < 1 → LCM_init (.int n) 1 = .error .valueError) ∧
    ((q < 0 ∨ 1 < q) → LCM_init (.float q) 1 = .error .valueError) ∧
    LCM_init .other 1 = .error .typeError ∧
    (1 ≤ n → LCM_init (.int n) 1 = .ok (initState (.int n) 1)) ∧
    (0 ≤ q ∧ q ≤ 1 → LCM_init (.float q) 1 = .ok (initState (.float q) 1)) := by
  refine ⟨?_, ?_, rfl, ?_, ?_⟩
  · intro h
    simp [LCM_init, check_min_supp, if_pos h, Except.map]
  · intro h
    simp [LCM_init, check_min_supp, if_pos h, Except.map]
  · intro h
    have hn : ¬ n < 1 := by omega
    simp [LCM_init, check_min_supp, if_neg hn, Except.map]
  · intro h
    have hq : ¬ (q < 0 ∨ 1 < q) := by
      push_neg
      exact ⟨h.1, h.2⟩
    simp [LCM_init, check_min_supp, if_neg hq, Except.map]

/-- Witness for C7: `min_supp = -1` and `min_supp = 3/2` are rejected,
`min_supp = 2` and `min_supp = 1/2` are accepted. -/
theorem c7_min_supp_validation_witness :
    LCM_init (.int (-1)) 1 = .error .valueError ∧
    LCM_init (.float (3/2)) 1 = .error .valueError ∧
    LCM_init (.int 2) 1 = .ok (initState (.int 2) 1) ∧
    LCM_init (.float (1/2)) 1 = .ok (initState (.float (1/2)) 1) :=
  ⟨(c7_min_supp_validation (-1) 0).1 (by norm_num),
   (c7_min_supp_validation 0 (3/2)).2.1 (by norm_num),
   (c7_min_supp_validation 2 0).2.2.2.1 (by norm_num),
   (c7_min_supp_validation 0 (1/2)).2.2.2.2 ⟨by norm_num, by norm_num⟩⟩

/-- C8: after `_fit`, every surviving index item has tid-set size at least
the resolved threshold; every item whose tid-set size is strictly below
the threshold is absent; and a relative (`float`) `min_supp` resolves to
`min_supp * n_transactions` with no rounding. -/
theorem c8_pruning_threshold (st : LCMState) (D : List (List ℕ)) :
    (∀ i ∈ (fitIndex st D).itemsL,
        (fitS st D).minSuppR ≤ (((fitIndex st D).tids i).card : ℚ)) ∧
    (∀ i : ℕ, ((transTids st.n_transactions D i).card : ℚ) < (fitS st D).minSuppR →
        i ∉ (fitIndex st D).itemsL) ∧
    (∀ q : ℚ, st.min_supp = MinSupp.float q →
        (fitS st D).minSuppR = q * ((st.n_transactions + D.length : ℕ) : ℚ)) := by
  refine ⟨?_, ?_, ?_⟩
  · intro i hi
    simp only [fitIndex] at hi
    have hmem := (List.mem_insertionSort _).mp hi
    rw [List.mem_filter, decide_eq_true_eq] at hmem
    exact not_lt.mp hmem.2
  · intro i hlow hi
    simp only [fitIndex] at hi
    have hmem := (List.mem_insertionSort _).mp hi
    rw [List.mem_filter, decide_eq_true_eq] at hmem
    exact hmem.2 hlow
  · intro q hq
    simp [fitS, resolveSupp, hq]

/-- Witness for C8: with absolute `min_supp = 2` on `[[1], [1,2]]`, item 1
(support 2) survives and item 2 (support 1) is pruned; with relative
`min_supp = 3/4` the resolved threshold is `3/4 * 2`. -/
theorem c8_pruning_threshold_witness :
    1 ∈ (fitIndex (initState (.int 2) 1) [[1], [1, 2]]).itemsL ∧
    (fitS (initState (.int 2) 1) [[1], [1, 2]]).minSuppR ≤
      (((fitIndex (initState (.int 2) 1) [[1], [1, 2]]).tids 1).card : ℚ) ∧
    ((transTids (initState (.int 2) 1).n_transactions [[1], [1, 2]] 2).card : ℚ) <
      (fitS (initState (.int 2) 1) [[1], [1, 2]]).minSuppR ∧
    2 ∉ (fitIndex (initState (.int 2) 1) [[1], [1, 2]]).itemsL ∧
    (fitS (initState (.float (3/4)) 1) [[1], [1, 2]]).minSuppR =
      (3/4 : ℚ) * (((initState (.float (3/4)) 1).n_transactions +
        [[1], [1, 2]].length : ℕ) : ℚ) :=
  ⟨by decide, (c8_pruning_threshold (initState (.int 2) 1) [[1], [1, 2]]).1 1 (by decide),
   by decide,
   (c8_pruning_threshold (initState (.int 2) 1) [[1], [1, 2]]).2.1 2 (by decide),
   (c8_pruning_threshold (initState (.float (3/4)) 1) [[1], [1, 2]]).2.2 (3/4) rfl⟩

/-- C9: the recursion of `_inner` terminates because every candidate `c`
passed as the new limit of a recursive call is strictly smaller than the
current limit; consequently any fuel beyond `limit` computes the same
(stable) result — `inner` is total. -/
theorem c9_limit_strictly_decreases (idx : Index) (ms : ℚ)
    (p tids : Finset ℕ) (limit c fuel : ℕ)
    (h : c ∈ candidates idx p limit) (hf : limit < fuel) :
    c < limit ∧ innerFuel idx ms fuel p tids limit = inner idx ms p tids limit :=
  ⟨(mem_candidates.mp h).2.2,
   innerFuel_irrel idx ms limit fuel (limit + 1) p tids hf (by omega)⟩

/-- Witness for C9: in the C2 run, the call with limit 5 recurses on
candidate 3 < 5, and fuel 6 already stabilizes the search at limit 5. -/
theorem c9_limit_strictly_decreases_witness :
    3 ∈ candidates (fitIndex (initState (.int 2) 1)
          [[1, 2, 3, 4, 5, 6], [2, 3, 5], [2, 5]]) ({2, 5} : Finset ℕ) 5 ∧
    (5 : ℕ) < 6 ∧
    (3 < 5 ∧
      innerFuel (fitIndex (initState (.int 2) 1)
          [[1, 2, 3, 4, 5, 6], [2, 3, 5], [2, 5]]) 2 6
          ({2, 5} : Finset ℕ) ({0, 1} : Finset ℕ) 5
        = inner (fitIndex (initState (.int 2) 1)
          [[1, 2, 3, 4, 5, 6], [2, 3, 5], [2, 5]]) 2
          ({2, 5} : Finset ℕ) ({0, 1} : Finset ℕ) 5) :=
  ⟨by decide, by decide,
    c9_limit_strictly_decreases _ 2 _ _ 5 3 6 (by decide) (by decide)⟩

/-- C10: on the empty database, `fit_discover` returns an empty pattern
collection without error for every valid `min_supp`, `fit_transform`
yields a `0 × 0` matrix, and a relative `min_supp` resolves to the
threshold `0`. -/
theorem c10_empty_database (ms : MinSupp) (nj : ℤ) (q : ℚ)
    (_h : (check_min_supp ms).isOk = true) :
    (fit_discover (initState ms nj) []).2 = [] ∧
    (fit_transform (initState ms nj) []).1 = 0 ∧
    (fit_transform (initState ms nj) []).2.1 = 0 ∧
    (fitS (initState (.float q) nj) []).minSuppR = 0 := by
  refine ⟨rfl, rfl, rfl, ?_⟩
  simp [fitS, resolveSupp, initState]

/-- Witness for C10: the relative default-style `min_supp = 1/2` on the
empty database. -/
theorem c10_empty_database_witness :
    (check_min_supp (.float (mkRat 1 2))).isOk = true ∧
    ((fit_discover (initState (.float (mkRat 1 2)) 1) []).2 = [] ∧
      (fit_transform (initState (.float (mkRat 1 2)) 1) []).1 = 0 ∧
      (fit_transform (initState (.float (mkRat 1 2)) 1) []).2.1 = 0 ∧
      (fitS (initState (.float (mkRat 1 2)) 1) []).minSuppR = 0) :=
  ⟨by decide, c10_empty_database (.float (mkRat 1 2)) 1 (mkRat 1 2) (by decide)⟩

end Skmine
